import Mathlib

/-!
Shallow embedding of the gcode lexical pipeline (src/gcode/src/lexer.rs and
src/gcode/src/words.rs).

The Rust source is a byte-offset cursor over a UTF-8 `&str`.  We model the
source text as a `List Char` and keep all cursor arithmetic in *bytes*
(`Char.utf8Size`), exactly as the Rust code does.  Rust operations that can
panic (slicing a string at a non-character-boundary byte offset,
`Option::expect`, `Option::unwrap`) are modelled as `Except.error` with a
message naming the panic; a run that never panics stays in `Except.ok`.
Recursion that Rust expresses with loops is modelled with an explicit fuel
parameter so that every definition is structurally recursive and evaluates by
`rfl`/`decide`; the fuel supplied (`byteLen src + 1` bytes, resp. one unit per
token) is an upper bound on the number of iterations the Rust loops can make,
and all universally quantified theorems are conditioned on an `ok` result, so
fuel exhaustion can never make a theorem claim more than the code does.
-/

namespace Gcode

/-- Total number of UTF-8 bytes of a character list (models `str::len`). -/
def byteLen (s : List Char) : Nat := (s.map Char.utf8Size).sum

/-- Decode the suffix of `s` that starts at byte offset `n`.  Returns `none`
when `n` is not on a character boundary or is past the end, which is exactly
when Rust's `&s[n..]` panics. -/
def suffixAt : List Char → Nat → Option (List Char)
  | s, n =>
    if n = 0 then some s
    else
      match s with
      | [] => none
      | c :: s' => if c.utf8Size ≤ n then suffixAt s' (n - c.utf8Size) else none

/-- Decode the first `n` bytes of a character list.  `none` when `n` is not a
character boundary of the list (models the right end of a Rust slice). -/
def takeBytes : List Char → Nat → Option (List Char)
  | s, n =>
    if n = 0 then some []
    else
      match s with
      | [] => none
      | c :: s' =>
        if c.utf8Size ≤ n then (takeBytes s' (n - c.utf8Size)).map (c :: ·) else none

/-- The byte slice `&s[a..b]`, as the character list it decodes to; `none`
exactly when the Rust slice would panic. -/
def sliceBytes (s : List Char) (a b : Nat) : Option (List Char) :=
  if a ≤ b then (suffixAt s a).bind (fun suf => takeBytes suf (b - a)) else none

/-- The character whose UTF-8 encoding contains byte `k` of the list. -/
def byteAt : List Char → Nat → Option Char
  | [], _ => none
  | c :: s, k => if k < c.utf8Size then some c else byteAt s (k - c.utf8Size)

/-- Models Rust `char::is_whitespace` (the Unicode `White_Space` property),
which is what `Lexer::skip_whitespace` uses. -/
def rustIsWhitespace (c : Char) : Bool :=
  c.toNat = 0x09 || c.toNat = 0x0a || c.toNat = 0x0b || c.toNat = 0x0c ||
  c.toNat = 0x0d || c.toNat = 0x20 || c.toNat = 0x85 || c.toNat = 0xa0 ||
  c.toNat = 0x1680 || (0x2000 ≤ c.toNat && c.toNat ≤ 0x200a) ||
  c.toNat = 0x2028 || c.toNat = 0x2029 || c.toNat = 0x202f ||
  c.toNat = 0x205f || c.toNat = 0x3000

/-- Modelled from the spec: the `Span` struct lives in the crate root, which is
not among the provided sources.  Spec section 3: half-open `[start, end)` byte
offsets plus a zero-based line index.  The Rust field `end` is spelled `stop`
here because `end` is a Lean keyword. -/
structure Span where
  start : Nat
  stop : Nat
  line : Nat
  deriving DecidableEq, Repr

/-- `Span::new(start, end, line)` as used by `Lexer::next`. -/
def Span.new (start stop line : Nat) : Span := ⟨start, stop, line⟩

/-- Modelled from the spec: `Span::merge` lives in the crate root, which is not
among the provided sources.  Spec section 3: two spans merge into the smallest
span covering both; the line index of the merged span is taken to be the
smaller of the two (both claims that touch merged spans only merge spans on
the same line, so nothing depends on this choice). -/
def Span.merge (a b : Span) : Span :=
  ⟨min a.start b.start, max a.stop b.stop, min a.line b.line⟩

/-- `TokenType` from lexer.rs. -/
inductive TokenType where
  | Letter
  | Number
  | Comment
  | Newline
  | Unknown
  deriving DecidableEq, Repr

/-- `impl From<char> for TokenType` (lexer.rs lines 12-26). -/
def TokenType.ofChar (c : Char) : TokenType :=
  if c.isAlpha then .Letter
  else if c.isDigit || c == '.' || c == '-' || c == '+' then .Number
  else if c == '(' || c == ';' || c == ')' then .Comment
  else if c == '\n' then .Newline
  else .Unknown

/-- `Token` from lexer.rs; `value` is the borrowed slice, kept as the character
list it decodes to. -/
structure Token where
  kind : TokenType
  value : List Char
  span : Span
  deriving DecidableEq, Repr

/-- The `Lexer` struct's mutable state.  The Rust struct also carries `src`,
which is never mutated; we pass it as an explicit argument instead. -/
structure Lexer where
  current_position : Nat
  current_line : Nat
  deriving DecidableEq, Repr

/-- `Lexer::new`. -/
def Lexer.new : Lexer := ⟨0, 0⟩

/-- Panic message for a byte-slice at a non-character boundary. -/
def boundaryMsg : String := "byte index is not a char boundary"

/-- Fuel-exhaustion marker; never produced when fuel bounds the loop count. -/
def fuelMsg : String := "fuel exhausted"

/-- The `expect` message in `Lexer::next` (without the apostrophe of the
original text). -/
def MSG : String := "This should be unreachable, a bounds check was already done"

/-- `Lexer::finished`. -/
def Lexer.finished (l : Lexer) (src : List Char) : Bool :=
  byteLen src ≤ l.current_position

/-- `Lexer::rest`: the suffix at the cursor, `""` when finished; `none` models
the panic of slicing at a non-boundary offset. -/
def Lexer.rest (l : Lexer) (src : List Char) : Option (List Char) :=
  if l.finished src then some []
  else suffixAt src l.current_position

/-- The byte length consumed by `Lexer::chomp`'s loop: keep going while the
(stateful, to model Rust's `FnMut` closures) predicate holds, stopping before
any `'\n'`. -/
def chompLen {σ : Type} (pred : σ → Char → σ × Bool) : σ → List Char → Nat
  | _, [] => 0
  | st, c :: cs =>
    match pred st c with
    | (st', b) =>
      if !b then 0
      else if c = '\n' then 0
      else c.utf8Size + chompLen pred st' cs

/-- Same loop as `chompLen` but counting characters instead of bytes. -/
def chompCount {σ : Type} (pred : σ → Char → σ × Bool) : σ → List Char → Nat
  | _, [] => 0
  | st, c :: cs =>
    match pred st c with
    | (st', b) =>
      if !b then 0
      else if c = '\n' then 0
      else chompCount pred st' cs + 1

/-- `Lexer::chomp` (lexer.rs lines 53-77): advance while the predicate holds,
returning the chomped slice, if any. -/
def Lexer.chomp {σ : Type} (l : Lexer) (src : List Char)
    (pred : σ → Char → σ × Bool) (st : σ) :
    Except String (Option (List Char) × Lexer) :=
  match l.rest src with
  | none => .error boundaryMsg
  | some r =>
    let n := chompLen pred st r
    if n = 0 then .ok (none, l)
    else
      match takeBytes r n with
      | none => .error boundaryMsg
      | some v => .ok (some v, { l with current_position := l.current_position + n })

/-- `Lexer::skip_whitespace`. -/
def Lexer.skip_whitespace (l : Lexer) (src : List Char) : Except String Lexer :=
  match l.chomp src (fun _ c => ((), rustIsWhitespace c)) () with
  | .error e => .error e
  | .ok (_, l') => .ok l'

/-- `Lexer::peek`. -/
def Lexer.peek (l : Lexer) (src : List Char) : Except String (Option TokenType) :=
  match l.rest src with
  | none => .error boundaryMsg
  | some r => .ok (r.head?.map TokenType.ofChar)

/-- `Lexer::tokenize_comment` (lexer.rs lines 89-127). -/
def Lexer.tokenize_comment (l : Lexer) (src : List Char) :
    Except String (Option (Token × Lexer)) :=
  let start := l.current_position
  let line := l.current_line
  match l.rest src with
  | none => .error boundaryMsg
  | some r =>
    if r.head? = some ';' then
      match l.chomp src (fun _ c => ((), c != '\n')) () with
      | .error e => .error e
      | .ok (cm?, l') =>
        let comment := cm?.getD []
        let stop := l'.current_position
        .ok (some (⟨.Comment, comment, ⟨start, stop, line⟩⟩, l'))
    else if r.head? = some '(' then
      match l.chomp src (fun _ c => ((), c != '\n' && c != ')')) () with
      | .error e => .error e
      | .ok (_, l') =>
        match l'.peek src with
        | .error e => .error e
        | .ok k? =>
          let kind := k?.getD .Unknown
          let l'' :=
            if kind = .Comment then
              { l' with current_position := l'.current_position + 1 }
            else l'
          let stop := l''.current_position
          match sliceBytes src start stop with
          | none => .error boundaryMsg
          | some value => .ok (some (⟨kind, value, ⟨start, stop, line⟩⟩, l''))
    else
      .ok none

/-- `Lexer::tokenize_letter` (lexer.rs lines 129-147). -/
def Lexer.tokenize_letter (l : Lexer) (src : List Char) :
    Except String (Option (Token × Lexer)) :=
  match l.rest src with
  | none => .error boundaryMsg
  | some r =>
    match r.head? with
    | none => .ok none
    | some c =>
      let start := l.current_position
      if c.isAlpha then
        match sliceBytes src start (start + 1) with
        | none => .error boundaryMsg
        | some value =>
          .ok (some (⟨.Letter, value, ⟨start, start + 1, l.current_line⟩⟩,
            { l with current_position := start + 1 }))
      else .ok none

/-- The `FnMut` closure of `tokenize_number`: state is
(`decimal_seen`, `letters_seen`). -/
def numPred : Bool × Nat → Char → (Bool × Nat) × Bool :=
  fun st c =>
    let decimal_seen := st.1
    let letters_seen := st.2 + 1
    let is_sign := c == '-' || c == '+'
    if (is_sign && letters_seen == 1) || c.isDigit then
      ((decimal_seen, letters_seen), true)
    else if c == '.' && !decimal_seen then
      ((true, letters_seen), true)
    else
      ((decimal_seen, letters_seen), false)

/-- `Lexer::tokenize_number` (lexer.rs lines 149-179). -/
def Lexer.tokenize_number (l : Lexer) (src : List Char) :
    Except String (Option (Token × Lexer)) :=
  let start := l.current_position
  let line := l.current_line
  match l.chomp src numPred (false, 0) with
  | .error e => .error e
  | .ok (none, _) => .ok none
  | .ok (some value, l') =>
    .ok (some (⟨.Number, value, ⟨start, l'.current_position, line⟩⟩, l'))

/-- `Lexer::tokenize_newline` (lexer.rs lines 181-196). -/
def Lexer.tokenize_newline (l : Lexer) (src : List Char) :
    Except String (Option (Token × Lexer)) :=
  let start := l.current_position
  let _ := src
  .ok (some (⟨.Newline, ['\n'], ⟨start, start + 1, l.current_line⟩⟩,
    ⟨start + 1, l.current_line + 1⟩))

/-- Models `Option::expect(MSG)` on the results of the `tokenize_*` calls in
`Lexer::next`. -/
def expectSome (x : Except String (Option (Token × Lexer))) :
    Except String (Option (Token × Lexer)) :=
  match x with
  | .error e => .error e
  | .ok none => .error MSG
  | .ok (some tl) => .ok (some tl)

/-- The `while let Some(kind) = self.peek()` loop of `Lexer::next`
(lexer.rs lines 220-257).  `start`/`line` are the values recorded before the
loop; the fuel bounds the number of iterations (the loop advances the cursor
by one byte per iteration, so `byteLen src + 1` units always suffice). -/
def lexNextLoop (src : List Char) (start line : Nat) :
    Nat → Lexer → Except String (Option (Token × Lexer))
  | 0, _ => .error fuelMsg
  | fuel + 1, l =>
    match l.peek src with
    | .error e => .error e
    | .ok (some kind) =>
      if kind ≠ .Unknown ∧ l.current_position ≠ start then
        -- we have finished processing some garbage
        match sliceBytes src start l.current_position with
        | none => .error boundaryMsg
        | some v =>
          .ok (some (⟨.Unknown, v, Span.new start l.current_position line⟩, l))
      else
        match kind with
        | .Comment => expectSome (l.tokenize_comment src)
        | .Letter => expectSome (l.tokenize_letter src)
        | .Number => expectSome (l.tokenize_number src)
        | .Newline => expectSome (l.tokenize_newline src)
        | .Unknown =>
          lexNextLoop src start line fuel
            { l with current_position := l.current_position + 1 }
    | .ok none =>
      if l.current_position ≠ start then
        -- make sure we deal with trailing garbage
        match sliceBytes src start (byteLen src) with
        | none => .error boundaryMsg
        | some v =>
          .ok (some (⟨.Unknown, v, Span.new start l.current_position line⟩, l))
      else
        .ok none

/-- `<Lexer as Iterator>::next` (lexer.rs lines 212-258). -/
def Lexer.next (l : Lexer) (src : List Char) :
    Except String (Option (Token × Lexer)) :=
  match l.skip_whitespace src with
  | .error e => .error e
  | .ok l1 =>
    lexNextLoop src l1.current_position l1.current_line (byteLen src + 1) l1

/-- Drain the lexer into a token list.  One unit of fuel per produced token;
every token consumes at least one byte, so `byteLen src + 1` units suffice for
any run starting from `Lexer.new`. -/
def lexRunF (src : List Char) : Nat → Lexer → Except String (List Token)
  | 0, _ => .error fuelMsg
  | fuel + 1, l =>
    match l.next src with
    | .error e => .error e
    | .ok none => .ok []
    | .ok (some (t, l')) =>
      match lexRunF src fuel l' with
      | .error e => .error e
      | .ok ts => .ok (t :: ts)

/-- The complete token sequence of an input, or the first panic. -/
def tokenize (src : List Char) : Except String (List Token) :=
  lexRunF src (byteLen src + 1) Lexer.new

/-- `Word` from words.rs.  The Rust `value` field is an `f32`; we model it as
the exact rational value of the parsed decimal text (see `parseF32`). -/
structure Word where
  letter : Char
  value : ℚ
  span : Span
  deriving DecidableEq, Repr

/-- Modelled from the spec: the `Comment` struct lives in the crate root,
which is not among the provided sources.  Spec section 3: a borrowed slice
plus its span. -/
structure Comment where
  value : List Char
  span : Span
  deriving DecidableEq, Repr

/-- `Atom` from words.rs. -/
inductive Atom where
  | Word : Word → Atom
  | Comment : Comment → Atom
  | Newline : Token → Atom
  | BrokenWord : Token → Atom
  | Unknown : Token → Atom
  deriving DecidableEq, Repr

/-- Digit string to natural number. -/
def digitsToNat (s : List Char) : Nat :=
  s.foldl (fun n c => 10 * n + (c.toNat - '0'.toNat)) 0

/-- Modelled from the spec: the success domain and value of Rust's
`str::parse::<f32>` (core's `f32: FromStr`), which is external to the crate,
restricted to the alphabet a `Number` token's text can contain (sign, ASCII
digits, at most one dot — see `tokenize_number`): an optional leading sign
followed by digits with at most one dot, containing at least one digit.
The numeric value is the exact decimal rational; `f32` rounding is not
modelled, and no claim inspects a value that is not exactly representable. -/
def parseF32 (s : List Char) : Option ℚ :=
  let signed : ℚ × List Char :=
    match s with
    | '-' :: r => (-1, r)
    | '+' :: r => (1, r)
    | r => (1, r)
  let sign := signed.1
  let t := signed.2
  let intPart := t.takeWhile (·.isDigit)
  let rest := t.dropWhile (·.isDigit)
  match rest with
  | [] => if intPart.isEmpty then none else some (sign * (digitsToNat intPart : ℚ))
  | '.' :: frac =>
    if frac.all (·.isDigit) && !(intPart.isEmpty && frac.isEmpty) then
      some (sign * ((digitsToNat intPart : ℚ) +
        (digitsToNat frac : ℚ) / ((10 : ℚ) ^ frac.length)))
    else none
  | _ => none

/-- The `WordsOrComments` struct: the upstream iterator is modelled as the
list of tokens it has yet to yield. -/
structure WordsOrComments where
  tokens : List Token
  last_letter : Option Token
  deriving DecidableEq, Repr

/-- Panic message for `Option::unwrap` on `None`
(`letter_token.value.chars().next().unwrap()`). -/
def unwrapMsg : String := "called unwrap on a None value"

/-- The `while let Some(token) = self.tokens.next()` loop of
`WordsOrComments::next` (words.rs lines 78-110), with the end-of-stream flush
folded in.  `.error ""` models `value.parse().expect("")`. -/
def wordsNextAux : List Token → Option Token →
    Except String (Option (Atom × WordsOrComments))
  | [], last =>
    .ok (match last with
      | some t => some (Atom.BrokenWord t, ⟨[], none⟩)
      | none => none)
  | token :: rest, last =>
    match token.kind with
    | .Unknown => .ok (some (.Unknown token, ⟨rest, last⟩))
    | .Newline => .ok (some (.Newline token, ⟨rest, last⟩))
    | .Comment => .ok (some (.Comment ⟨token.value, token.span⟩, ⟨rest, last⟩))
    | .Letter =>
      match last with
      | none => wordsNextAux rest (some token)
      | some _ => .ok (some (.BrokenWord token, ⟨rest, last⟩))
    | .Number =>
      match last with
      | some letter_token =>
        match letter_token.value with
        | [] => .error unwrapMsg
        | letter :: _ =>
          match parseF32 token.value with
          | none => .error ""
          | some value =>
            .ok (some (.Word ⟨letter, value, letter_token.span.merge token.span⟩,
              ⟨rest, none⟩))
      | none => .ok (some (.BrokenWord token, ⟨rest, last⟩))

/-- `<WordsOrComments as Iterator>::next`. -/
def WordsOrComments.next (w : WordsOrComments) :
    Except String (Option (Atom × WordsOrComments)) :=
  wordsNextAux w.tokens w.last_letter

/-- Drain the grouper into an atom list; every produced atom either consumes a
token or is the single end-of-stream flush, so `tokens.length + 1` units of
fuel suffice. -/
def wordsRunF : Nat → WordsOrComments → Except String (List Atom)
  | 0, _ => .error fuelMsg
  | fuel + 1, w =>
    match w.next with
    | .error e => .error e
    | .ok none => .ok []
    | .ok (some (a, w')) =>
      match wordsRunF fuel w' with
      | .error e => .error e
      | .ok as' => .ok (a :: as')

/-- The full pipeline of the crate: text to tokens to atoms, or the first
panic. -/
def atomize (src : List Char) : Except String (List Atom) :=
  match tokenize src with
  | .error e => .error e
  | .ok ts => wordsRunF (ts.length + 1) ⟨ts, none⟩

/-- A token produced by `tokenize_newline`: kind `Newline` and value the
actual newline character (the unterminated-comment token is also tagged
`Newline` but its value starts with a parenthesis). -/
def isHardNewline (t : Token) : Bool :=
  t.kind == .Newline && t.value == ['\n']

/-- Number of `isHardNewline` tokens among the first `i` tokens. -/
def newlinesBefore (ts : List Token) (i : Nat) : Nat :=
  ((ts.take i).filter isHardNewline).length

/-- Byte `k` of `src` belongs to a whitespace character. -/
def wsByte (src : List Char) (k : Nat) : Prop :=
  ∃ c, byteAt src k = some c ∧ rustIsWhitespace c = true

/-- All bytes in `[a, b)` belong to whitespace characters. -/
def wsRange (src : List Char) (a b : Nat) : Prop :=
  ∀ k, a ≤ k → k < b → wsByte src k

/-- The per-token invariant chain: tokens sit in order, separated only by
whitespace bytes, and the region after the last token is all whitespace. -/
inductive chain (src : List Char) : Nat → List Token → Prop where
  | nil : ∀ p, wsRange src p (byteLen src) → chain src p []
  | cons : ∀ p t ts, p ≤ t.span.start → wsRange src p t.span.start →
      t.span.start < t.span.stop → t.span.stop ≤ byteLen src →
      chain src t.span.stop ts → chain src p (t :: ts)

end Gcode

namespace Gcode

/-- C1: the claim says every call to the tokenizer's produce-next operation
returns a token or end-of-input without failing, in particular on a `)` with
no preceding `(` and on multi-byte characters.  The code violates this: on
input `")"` the classifier reports `Comment` but `tokenize_comment` handles
only `;` and `(` and returns `None`, so the `.expect(MSG)` in `Lexer::next`
fires; on input `"é"` the `Unknown` branch advances the cursor by one byte
into the middle of the two-byte character and the next `rest()` slices at a
non-character boundary.  Both panics are evaluated here. -/
theorem c1_code_bug :
    (Lexer.new).next [')'] = .error MSG ∧
    (Lexer.new).next ['é'] = .error boundaryMsg :=
  ⟨rfl, rfl⟩

/-- C2: the claim says every `Number` token's text parses as an `f32`, making
the word grouper's parse-failure branch unreachable.  The code violates this:
on input `"A-"` the tokenizer emits the `Number` token `"-"`, whose text does
not parse as a float, so `value.parse().expect("")` in
`WordsOrComments::next` fires. -/
theorem c2_code_bug :
    tokenize ['A', '-'] =
      .ok [⟨.Letter, ['A'], ⟨0, 1, 0⟩⟩, ⟨.Number, ['-'], ⟨1, 2, 0⟩⟩] ∧
    parseF32 ['-'] = none ∧
    atomize ['A', '-'] = .error "" :=
  ⟨rfl, rfl, rfl⟩

/-- C3 counterexample: on input `"(\nA"` the unterminated parenthesis comment
produces a first token of kind `Newline` (value `"("`), which does not bump
the line counter; the second token (the real `"\n"`) therefore carries line 0
although one token of kind `Newline` precedes it, refuting the claim that a
token's line number equals the count of earlier `Newline`-kind tokens. -/
theorem c3_counterexample :
    ¬ (∀ ts, tokenize ['(', '\n', 'A'] = .ok ts →
        ∀ i, ∀ hi : i < ts.length,
          (ts.get ⟨i, hi⟩).span.line =
            ((ts.take i).filter (fun t => t.kind == TokenType.Newline)).length) := by
  intro h
  have h2 := h
    [⟨.Newline, ['('], ⟨0, 1, 0⟩⟩, ⟨.Newline, ['\n'], ⟨1, 2, 0⟩⟩,
     ⟨.Letter, ['A'], ⟨2, 3, 1⟩⟩] rfl 1 (by decide)
  exact absurd h2 (by decide)

/-- C4 counterexample: the claim quantifies over every input string, but on
input `"¡"` the tokenizer panics (byte-offset slice inside a two-byte
character) before producing any token, so the single non-whitespace byte of
the input is covered by no token span and no whitespace-skipped run. -/
theorem c4_counterexample :
    tokenize ['¡'] = .error boundaryMsg ∧
    byteAt ['¡'] 0 = some '¡' ∧
    rustIsWhitespace '¡' = false :=
  ⟨rfl, rfl, rfl⟩

/-- C8 counterexample: a space is classified `Unknown` by `TokenType::from`,
so on input `" $"` the maximal run of `Unknown`-classified characters is the
whole input `[0, 2)`; but leading whitespace is skipped before the token
starts, and the single `Unknown` token spans only `[1, 2)` — it does not
cover the whole run, refuting the claim as stated. -/
theorem c8_counterexample :
    TokenType.ofChar ' ' = .Unknown ∧
    tokenize [' ', '$'] = .ok [⟨.Unknown, ['$'], ⟨1, 2, 0⟩⟩] :=
  ⟨rfl, rfl⟩

/-- C5: when the grouper reads a `Letter` token while a letter is already
pending, or a `Number` token while no letter is pending, it emits
`Atom::BrokenWord` wrapping exactly the just-read token and leaves the
pending letter unchanged; consequently on `"GG1"` the second `G` is emitted
as `BrokenWord` and the `1` pairs with the first `G`, producing
`Word { letter: 'G', value: 1.0 }` whose span starts at the first `G`. -/
theorem c5_theorem :
    (∀ w : WordsOrComments, ∀ tok rest p, w.tokens = tok :: rest →
        tok.kind = .Letter → w.last_letter = some p →
        w.next = .ok (some (.BrokenWord tok, ⟨rest, some p⟩))) ∧
    (∀ w : WordsOrComments, ∀ tok rest, w.tokens = tok :: rest →
        tok.kind = .Number → w.last_letter = none →
        w.next = .ok (some (.BrokenWord tok, ⟨rest, none⟩))) ∧
    atomize "GG1".toList =
      .ok [.BrokenWord ⟨.Letter, ['G'], ⟨1, 2, 0⟩⟩,
           .Word ⟨'G', 1, ⟨0, 3, 0⟩⟩] := by
  refine ⟨?_, ?_, ?_⟩
  case refine_3 =>
    have h : atomize "GG1".toList =
        .ok [.BrokenWord ⟨.Letter, ['G'], ⟨1, 2, 0⟩⟩,
             .Word ⟨'G', (1 : ℚ) * ((digitsToNat ['1'] : ℕ) : ℚ), ⟨0, 3, 0⟩⟩] := rfl
    have h1 : digitsToNat ['1'] = 1 := rfl
    rw [h, h1]
    norm_num
  · rintro ⟨tks, last⟩ tok rest p htk hk hl
    simp only at htk hl
    subst htk
    subst hl
    simp [WordsOrComments.next, wordsNextAux, hk]
  · rintro ⟨tks, last⟩ tok rest htk hk hl
    simp only at htk hl
    subst htk
    subst hl
    simp [WordsOrComments.next, wordsNextAux, hk]

/-- Witness for C5 at concrete inputs: a `Letter` read while `G` is pending
becomes `BrokenWord` with the pending `G` retained, and a `Number` read with
nothing pending becomes `BrokenWord`. -/
theorem c5_witness :
    WordsOrComments.next
        ⟨[⟨.Letter, ['X'], ⟨3, 4, 0⟩⟩], some ⟨.Letter, ['G'], ⟨0, 1, 0⟩⟩⟩ =
      .ok (some (.BrokenWord ⟨.Letter, ['X'], ⟨3, 4, 0⟩⟩,
        ⟨[], some ⟨.Letter, ['G'], ⟨0, 1, 0⟩⟩⟩)) ∧
    WordsOrComments.next ⟨[⟨.Number, ['7'], ⟨0, 1, 0⟩⟩], none⟩ =
      .ok (some (.BrokenWord ⟨.Number, ['7'], ⟨0, 1, 0⟩⟩, ⟨[], none⟩)) :=
  ⟨c5_theorem.1 _ _ _ _ rfl rfl rfl, c5_theorem.2.1 _ _ _ rfl rfl rfl⟩

/-- C6: emitting an `Atom::Comment` or `Atom::Newline` leaves the grouper's
pending-letter state unchanged, so a pending letter still pairs with a later
`Number`; on `"G(c)1"` the resulting `Word`'s merged span `[0, 5)` covers the
intervening comment. -/
theorem c6_theorem :
    (∀ w : WordsOrComments, ∀ tok rest, w.tokens = tok :: rest →
        tok.kind = .Newline →
        w.next = .ok (some (.Newline tok, ⟨rest, w.last_letter⟩))) ∧
    (∀ w : WordsOrComments, ∀ tok rest, w.tokens = tok :: rest →
        tok.kind = .Comment →
        w.next = .ok (some (.Comment ⟨tok.value, tok.span⟩, ⟨rest, w.last_letter⟩))) ∧
    atomize "G(c)1".toList =
      .ok [.Comment ⟨"(c)".toList, ⟨1, 4, 0⟩⟩, .Word ⟨'G', 1, ⟨0, 5, 0⟩⟩] := by
  refine ⟨?_, ?_, ?_⟩
  case refine_3 =>
    have h : atomize "G(c)1".toList =
        .ok [.Comment ⟨"(c)".toList, ⟨1, 4, 0⟩⟩,
             .Word ⟨'G', (1 : ℚ) * ((digitsToNat ['1'] : ℕ) : ℚ), ⟨0, 5, 0⟩⟩] := rfl
    have h1 : digitsToNat ['1'] = 1 := rfl
    rw [h, h1]
    norm_num
  · rintro ⟨tks, last⟩ tok rest htk hk
    simp only at htk
    subst htk
    simp [WordsOrComments.next, wordsNextAux, hk]
  · rintro ⟨tks, last⟩ tok rest htk hk
    simp only at htk
    subst htk
    simp [WordsOrComments.next, wordsNextAux, hk]

/-- Witness for C6 at concrete inputs: a `Newline` token and a `Comment` token
pass through while the pending `G` is preserved. -/
theorem c6_witness :
    WordsOrComments.next
        ⟨[⟨.Newline, ['\n'], ⟨1, 2, 0⟩⟩], some ⟨.Letter, ['G'], ⟨0, 1, 0⟩⟩⟩ =
      .ok (some (.Newline ⟨.Newline, ['\n'], ⟨1, 2, 0⟩⟩,
        ⟨[], some ⟨.Letter, ['G'], ⟨0, 1, 0⟩⟩⟩)) ∧
    WordsOrComments.next
        ⟨[⟨.Comment, [';'], ⟨1, 2, 0⟩⟩], some ⟨.Letter, ['G'], ⟨0, 1, 0⟩⟩⟩ =
      .ok (some (.Comment ⟨[';'], ⟨1, 2, 0⟩⟩,
        ⟨[], some ⟨.Letter, ['G'], ⟨0, 1, 0⟩⟩⟩)) :=
  ⟨c6_theorem.1 _ _ _ rfl rfl, c6_theorem.2.1 _ _ _ rfl rfl⟩

/-- C9: when the upstream token sequence is exhausted with a letter still
pending, the grouper flushes it exactly once as a final `BrokenWord` and
leaves a state (no tokens, no pending letter) on which every further call
signals end-of-sequence. -/
theorem c9_theorem : ∀ t : Token,
    WordsOrComments.next ⟨[], some t⟩ =
      .ok (some (.BrokenWord t, ⟨[], none⟩)) ∧
    WordsOrComments.next ⟨[], none⟩ = .ok none :=
  fun _ => ⟨rfl, rfl⟩

/-- C10: on `"$# ! @ x52"` the coalesced `Unknown` token's value is
`"$# ! @ "`, containing the interior spaces verbatim; whitespace is discarded
silently only when skipped at the start of a call, as on `" x"` where the
leading space is in no token. -/
theorem c10_theorem :
    tokenize "$# ! @ x52".toList =
      .ok [⟨.Unknown, ['$', '#', ' ', '!', ' ', '@', ' '], ⟨0, 7, 0⟩⟩,
           ⟨.Letter, ['x'], ⟨7, 8, 0⟩⟩,
           ⟨.Number, ['5', '2'], ⟨8, 10, 0⟩⟩] ∧
    ' ' ∈ (['$', '#', ' ', '!', ' ', '@', ' '] : List Char) ∧
    tokenize " x".toList = .ok [⟨.Letter, ['x'], ⟨1, 2, 0⟩⟩] :=
  ⟨rfl, by decide, rfl⟩

end Gcode

namespace Gcode

theorem byteLen_cons (c : Char) (s : List Char) :
    byteLen (c :: s) = c.utf8Size + byteLen s := by
  simp [byteLen]

theorem byteLen_append (xs ys : List Char) :
    byteLen (xs ++ ys) = byteLen xs + byteLen ys := by
  simp [byteLen]

theorem byteLen_eq_zero {xs : List Char} : byteLen xs = 0 ↔ xs = [] := by
  cases xs with
  | nil => simp [byteLen]
  | cons c s =>
    have := c.utf8Size_pos
    simp only [byteLen_cons]
    constructor
    · intro h; omega
    · intro h; exact absurd h (by simp)

theorem byteLen_take_le (xs : List Char) (j : Nat) :
    byteLen (xs.take j) ≤ byteLen xs := by
  conv_rhs => rw [← List.take_append_drop j xs]
  rw [byteLen_append]
  omega

theorem suffixAt_zero (s : List Char) : suffixAt s 0 = some s := by
  cases s <;> rfl

theorem suffixAt_nil_pos {n : Nat} (h : n ≠ 0) : suffixAt [] n = none := by
  cases n with
  | zero => exact absurd rfl h
  | succ m => rfl

theorem suffixAt_cons_pos (c : Char) (s : List Char) {n : Nat} (h : n ≠ 0) :
    suffixAt (c :: s) n =
      if c.utf8Size ≤ n then suffixAt s (n - c.utf8Size) else none := by
  cases n with
  | zero => exact absurd rfl h
  | succ m => rfl

theorem takeBytes_zero (s : List Char) : takeBytes s 0 = some [] := by
  cases s <;> rfl

theorem takeBytes_nil_pos {n : Nat} (h : n ≠ 0) : takeBytes [] n = none := by
  cases n with
  | zero => exact absurd rfl h
  | succ m => rfl

theorem takeBytes_cons_pos (c : Char) (s : List Char) {n : Nat} (h : n ≠ 0) :
    takeBytes (c :: s) n =
      if c.utf8Size ≤ n then (takeBytes s (n - c.utf8Size)).map (c :: ·) else none := by
  cases n with
  | zero => exact absurd rfl h
  | succ m => rfl

theorem suffixAt_byteLen : ∀ (src : List Char) (p : Nat) {r : List Char},
    suffixAt src p = some r → byteLen src = p + byteLen r := by
  intro src
  induction src with
  | nil =>
    intro p r h
    by_cases hp : p = 0
    · subst hp; rw [suffixAt_zero] at h; cases h; simp [byteLen]
    · rw [suffixAt_nil_pos hp] at h; cases h
  | cons c s ih =>
    intro p r h
    by_cases hp : p = 0
    · subst hp; rw [suffixAt_zero] at h; cases h; simp
    · rw [suffixAt_cons_pos c s hp] at h
      by_cases hsz : c.utf8Size ≤ p
      · rw [if_pos hsz] at h
        have := ih _ h
        rw [byteLen_cons]
        omega
      · rw [if_neg hsz] at h; cases h

theorem suffixAt_cons_drop : ∀ (src : List Char) (p : Nat) {c : Char} {r : List Char},
    suffixAt src p = some (c :: r) → suffixAt src (p + c.utf8Size) = some r := by
  intro src
  induction src with
  | nil =>
    intro p c r h
    by_cases hp : p = 0
    · subst hp; rw [suffixAt_zero] at h; cases h
    · rw [suffixAt_nil_pos hp] at h; cases h
  | cons a s ih =>
    intro p c r h
    by_cases hp : p = 0
    · subst hp
      rw [suffixAt_zero] at h
      injection h with h2
      injection h2 with hc hr
      subst hc
      subst hr
      have hpos := Char.utf8Size_pos a
      rw [suffixAt_cons_pos a s (by omega)]
      rw [if_pos (by omega)]
      have harith : 0 + a.utf8Size - a.utf8Size = 0 := by omega
      rw [harith, suffixAt_zero]
    · rw [suffixAt_cons_pos a s hp] at h
      by_cases hsz : a.utf8Size ≤ p
      · rw [if_pos hsz] at h
        have hrec := ih _ h
        have hpos := Char.utf8Size_pos c
        rw [suffixAt_cons_pos a s (show p + c.utf8Size ≠ 0 by omega)]
        rw [if_pos (by omega)]
        have harith : p + c.utf8Size - a.utf8Size = p - a.utf8Size + c.utf8Size := by
          omega
        rw [harith]
        exact hrec
      · rw [if_neg hsz] at h; cases h

theorem suffixAt_append {src : List Char} : ∀ (xs : List Char) {p : Nat} {ys : List Char},
    suffixAt src p = some (xs ++ ys) → suffixAt src (p + byteLen xs) = some ys := by
  intro xs
  induction xs with
  | nil => intro p ys h; simpa [byteLen] using h
  | cons c xs' ih =>
    intro p ys h
    have h1 := suffixAt_cons_drop src p h
    have h2 := ih h1
    rw [byteLen_cons]
    have harith : p + (c.utf8Size + byteLen xs') = p + c.utf8Size + byteLen xs' := by
      omega
    rw [harith]
    exact h2

theorem takeBytes_front : ∀ (xs ys : List Char),
    takeBytes (xs ++ ys) (byteLen xs) = some xs := by
  intro xs
  induction xs with
  | nil =>
    intro ys
    simp only [List.nil_append]
    rw [show byteLen [] = 0 from rfl]
    exact takeBytes_zero ys
  | cons c xs' ih =>
    intro ys
    have hpos := Char.utf8Size_pos c
    rw [List.cons_append, byteLen_cons]
    rw [takeBytes_cons_pos c (xs' ++ ys) (by omega)]
    rw [if_pos (by omega)]
    have harith : c.utf8Size + byteLen xs' - c.utf8Size = byteLen xs' := by omega
    rw [harith, ih]
    rfl

theorem sliceBytes_of_suffixAt {src : List Char} {p : Nat} (xs ys : List Char)
    (h : suffixAt src p = some (xs ++ ys)) :
    sliceBytes src p (p + byteLen xs) = some xs := by
  unfold sliceBytes
  rw [if_pos (Nat.le_add_right _ _), h]
  simp [takeBytes_front]

theorem byteAt_suffixAt : ∀ (src : List Char) (p : Nat) {r : List Char},
    suffixAt src p = some r → ∀ b, byteAt src (p + b) = byteAt r b := by
  intro src
  induction src with
  | nil =>
    intro p r h b
    by_cases hp : p = 0
    · subst hp; rw [suffixAt_zero] at h; cases h; rfl
    · rw [suffixAt_nil_pos hp] at h; cases h
  | cons c s ih =>
    intro p r h b
    by_cases hp : p = 0
    · subst hp; rw [suffixAt_zero] at h; cases h; rw [Nat.zero_add]
    · rw [suffixAt_cons_pos c s hp] at h
      by_cases hsz : c.utf8Size ≤ p
      · rw [if_pos hsz] at h
        have hrec := ih _ h b
        show byteAt (c :: s) (p + b) = byteAt r b
        rw [byteAt]
        rw [if_neg (by omega)]
        have harith : p + b - c.utf8Size = p - c.utf8Size + b := by omega
        rw [harith]
        exact hrec
      · rw [if_neg hsz] at h; cases h

theorem byteAt_append_left : ∀ (xs ys : List Char) (b : Nat), b < byteLen xs →
    byteAt (xs ++ ys) b = byteAt xs b := by
  intro xs
  induction xs with
  | nil => intro ys b hb; simp [byteLen] at hb
  | cons c xs' ih =>
    intro ys b hb
    rw [List.cons_append, byteAt, byteAt]
    by_cases hlt : b < c.utf8Size
    · rw [if_pos hlt, if_pos hlt]
    · rw [if_neg hlt, if_neg hlt]
      apply ih
      rw [byteLen_cons] at hb
      omega

theorem byteAt_mem : ∀ (xs : List Char) (b : Nat) {c : Char},
    byteAt xs b = some c → c ∈ xs := by
  intro xs
  induction xs with
  | nil => intro b c h; cases h
  | cons a s ih =>
    intro b c h
    rw [byteAt] at h
    by_cases hlt : b < a.utf8Size
    · rw [if_pos hlt] at h; cases h; exact List.mem_cons_self _ _
    · rw [if_neg hlt] at h
      exact List.mem_cons_of_mem _ (ih _ h)


theorem chompLen_eq_take {σ : Type} (pred : σ → Char → σ × Bool) :
    ∀ (st : σ) (r : List Char),
      chompLen pred st r = byteLen (r.take (chompCount pred st r)) := by
  intro st r
  induction r generalizing st with
  | nil => simp [chompLen, chompCount, byteLen]
  | cons c cs ih =>
    rcases hp : pred st c with ⟨st2, b⟩
    rw [chompLen, chompCount, hp]
    cases b with
    | false => simp [byteLen]
    | true =>
      by_cases hc : c = '\n'
      · simp [hc, byteLen]
      · simp [hc, ih st2, byteLen_cons]

theorem chompCount_le {σ : Type} (pred : σ → Char → σ × Bool) :
    ∀ (st : σ) (r : List Char), chompCount pred st r ≤ r.length := by
  intro st r
  induction r generalizing st with
  | nil => simp [chompCount]
  | cons c cs ih =>
    rcases hp : pred st c with ⟨st2, b⟩
    rw [chompCount, hp]
    cases b with
    | false => simp
    | true =>
      by_cases hc : c = '\n' <;> simp [hc]
      exact ih st2

theorem chompCount_cons_pos {σ : Type} (pred : σ → Char → σ × Bool) (st : σ)
    (c : Char) (cs : List Char) (hb : (pred st c).2 = true) (hc : c ≠ '\n') :
    chompCount pred st (c :: cs) = chompCount pred (pred st c).1 cs + 1 := by
  rcases hp : pred st c with ⟨st2, b⟩
  rw [chompCount, hp]
  rw [hp] at hb
  simp at hb
  subst hb
  simp [hc, hp]

theorem chomp_eq {σ : Type} (l : Lexer) (src : List Char) (pred : σ → Char → σ × Bool)
    (st : σ) {r : List Char} (hr : l.rest src = some r) :
    l.chomp src pred st =
      if chompCount pred st r = 0 then .ok (none, l)
      else
        .ok (some (r.take (chompCount pred st r)),
          { l with current_position :=
              l.current_position + byteLen (r.take (chompCount pred st r)) }) := by
  unfold Lexer.chomp
  rw [hr]
  simp only [chompLen_eq_take]
  by_cases h0 : chompCount pred st r = 0
  · rw [if_pos h0, h0]
    simp [byteLen]
  · rw [if_neg h0]
    have hne : r.take (chompCount pred st r) ≠ [] := by
      cases r with
      | nil => exact absurd (Nat.le_zero.mp (chompCount_le pred st [])) h0
      | cons c cs =>
        intro hcontra
        rcases List.take_eq_nil_iff.mp hcontra with h | h
        · exact h0 h
        · cases h
    have hnz : byteLen (r.take (chompCount pred st r)) ≠ 0 := fun hh =>
      hne (byteLen_eq_zero.mp hh)
    rw [if_neg hnz]
    have htb := takeBytes_front (r.take (chompCount pred st r))
      (r.drop (chompCount pred st r))
    rw [List.take_append_drop] at htb
    rw [htb]

theorem chompCount_unit_take (p : Char → Bool) : ∀ (r : List Char),
    ∀ c ∈ r.take (chompCount (fun _ c => ((), p c)) () r), p c = true ∧ c ≠ '\n' := by
  intro r
  induction r with
  | nil => simp [chompCount]
  | cons c cs ih =>
    rw [chompCount]
    by_cases hb : p c
    · by_cases hc : c = '\n'
      · simp [hc]
      · simp only [hb, hc]
        simp only [Bool.not_true, Bool.false_eq_true, if_false, if_neg hc]
        intro d hd
        rcases List.mem_cons.mp (by simpa using hd) with h | h
        · subst h; exact ⟨hb, hc⟩
        · exact ih d h
    · simp [hb]

theorem chompCount_unit_stop (p : Char → Bool) : ∀ (r : List Char) {d : Char} {r₂ : List Char},
    r.drop (chompCount (fun _ c => ((), p c)) () r) = d :: r₂ →
    p d = false ∨ d = '\n' := by
  intro r
  induction r with
  | nil => intro d r₂ h; simp [chompCount] at h
  | cons c cs ih =>
    intro d r₂ h
    rw [chompCount] at h
    by_cases hb : p c
    · by_cases hc : c = '\n'
      · simp [hb, hc] at h
        rcases h with ⟨h1, _⟩
        right
        exact h1.symm
      · simp [hb, hc] at h
        exact ih h
    · simp [hb] at h
      rcases h with ⟨h1, _⟩
      left
      rw [← h1]
      simpa using hb

theorem chompCount_unit_append (p : Char → Bool) : ∀ (xs ys : List Char),
    (∀ c ∈ xs, p c = true ∧ c ≠ '\n') →
    (∀ d ys2, ys = d :: ys2 → p d = false ∨ d = '\n') →
    chompCount (fun _ c => ((), p c)) () (xs ++ ys) = xs.length := by
  intro xs
  induction xs with
  | nil =>
    intro ys _ hstop
    cases ys with
    | nil => simp [chompCount]
    | cons d ys2 =>
      rw [List.nil_append, chompCount]
      rcases hstop d ys2 rfl with h | h
      · simp [h]
      · subst h
        simp
  | cons c xs2 ih =>
    intro ys hxs hstop
    have hc := hxs c (List.mem_cons_self c xs2)
    rw [List.cons_append, chompCount]
    simp only [hc.1, hc.2]
    simp only [Bool.not_true, Bool.false_eq_true, if_false, if_neg hc.2]
    rw [ih ys (fun d hd => hxs d (List.mem_cons_of_mem c hd)) hstop]
    simp


theorem rest_of_suffixAt {l : Lexer} {src : List Char} {xs : List Char}
    (h : suffixAt src l.current_position = some xs) : l.rest src = some xs := by
  unfold Lexer.rest Lexer.finished
  by_cases hf : byteLen src ≤ l.current_position
  · have hbl := suffixAt_byteLen src l.current_position h
    have hx : xs = [] := byteLen_eq_zero.mp (by omega)
    subst hx
    simp [hf]
  · simp [hf, h]

theorem rest_finished {l : Lexer} {src : List Char}
    (h : byteLen src ≤ l.current_position) : l.rest src = some [] := by
  unfold Lexer.rest Lexer.finished
  simp [h]

theorem peek_of_suffixAt {l : Lexer} {src : List Char} {c : Char} {r : List Char}
    (h : suffixAt src l.current_position = some (c :: r)) :
    l.peek src = .ok (some (TokenType.ofChar c)) := by
  unfold Lexer.peek
  rw [rest_of_suffixAt h]
  rfl

theorem peek_some_elim {l : Lexer} {src : List Char} {k : TokenType}
    (h : l.peek src = .ok (some k)) :
    ∃ c r, suffixAt src l.current_position = some (c :: r) ∧
      TokenType.ofChar c = k ∧ l.current_position < byteLen src := by
  unfold Lexer.peek at h
  rcases hr : l.rest src with _ | r
  · rw [hr] at h; cases h
  · rw [hr] at h
    cases r with
    | nil => simp at h
    | cons c r' =>
      simp at h
      refine ⟨c, r', ?_, h, ?_⟩
      · unfold Lexer.rest Lexer.finished at hr
        by_cases hf : byteLen src ≤ l.current_position
        · simp [hf] at hr
        · simp [hf] at hr
          exact hr
      · unfold Lexer.rest Lexer.finished at hr
        by_cases hf : byteLen src ≤ l.current_position
        · simp [hf] at hr
        · omega

theorem peek_none_elim {l : Lexer} {src : List Char}
    (h : l.peek src = .ok none) : byteLen src ≤ l.current_position := by
  unfold Lexer.peek at h
  rcases hr : l.rest src with _ | r
  · rw [hr] at h; cases h
  · rw [hr] at h
    cases r with
    | cons c r' => simp at h
    | nil =>
      unfold Lexer.rest Lexer.finished at hr
      by_cases hf : byteLen src ≤ l.current_position
      · exact hf
      · simp [hf] at hr
        have := suffixAt_byteLen src l.current_position hr
        rw [show byteLen ([] : List Char) = 0 from rfl] at this
        omega

theorem ofChar_letter {c : Char} (h : TokenType.ofChar c = .Letter) :
    c.isAlpha = true := by
  unfold TokenType.ofChar at h
  split at h
  · assumption
  · split at h
    · cases h
    · split at h
      · cases h
      · split at h <;> cases h

theorem ofChar_newline {c : Char} (h : TokenType.ofChar c = .Newline) :
    c = '\n' := by
  unfold TokenType.ofChar at h
  split at h
  · cases h
  · split at h
    · cases h
    · split at h
      · cases h
      · split at h
        · next heq => exact eq_of_beq heq
        · cases h

theorem ofChar_comment {c : Char} (h : TokenType.ofChar c = .Comment) :
    c = '(' ∨ c = ';' ∨ c = ')' := by
  unfold TokenType.ofChar at h
  split at h
  · cases h
  · split at h
    · cases h
    · split at h
      · next heq =>
        simp only [Bool.or_eq_true, beq_iff_eq] at heq
        rcases heq with (h2 | h2) | h2
        · exact Or.inl h2
        · exact Or.inr (Or.inl h2)
        · exact Or.inr (Or.inr h2)
      · split at h <;> cases h

theorem ofChar_number {c : Char} (h : TokenType.ofChar c = .Number) :
    (c.isDigit || c == '.' || c == '-' || c == '+') = true ∧ c ≠ '\n' := by
  unfold TokenType.ofChar at h
  split at h
  · cases h
  · split at h
    · next hcond =>
      refine ⟨hcond, ?_⟩
      intro hc
      subst hc
      exact absurd hcond (by decide)
    · split at h
      · cases h
      · split at h <;> cases h

theorem ofChar_unknown_not_ws {c : Char} (h : TokenType.ofChar c = .Unknown) :
    c ≠ '\n' := by
  intro hc
  subst hc
  exact absurd h (by decide)


theorem utf8Size_one_of_toNat_lt {c : Char} (h : c.toNat < 128) : c.utf8Size = 1 := by
  unfold Char.utf8Size
  rw [if_pos]
  rw [UInt32.le_def, BitVec.le_def]
  exact Nat.le_of_lt_succ h

theorem isAlpha_utf8Size {c : Char} (h : c.isAlpha = true) : c.utf8Size = 1 := by
  apply utf8Size_one_of_toNat_lt
  unfold Char.isAlpha Char.isUpper Char.isLower at h
  simp only [Bool.or_eq_true, Bool.and_eq_true, decide_eq_true_eq] at h
  rcases h with ⟨_, h2⟩ | ⟨_, h2⟩
  · rw [UInt32.le_def, BitVec.le_def] at h2
    have h5 : ((90 : UInt32)).toBitVec.toNat = 90 := rfl
    rw [h5] at h2
    have h4 : c.toNat ≤ 90 := h2
    omega
  · rw [UInt32.le_def, BitVec.le_def] at h2
    have h5 : ((122 : UInt32)).toBitVec.toNat = 122 := rfl
    rw [h5] at h2
    have h4 : c.toNat ≤ 122 := h2
    omega

theorem tokenize_newline_eq (l : Lexer) (src : List Char) :
    l.tokenize_newline src =
      .ok (some (⟨.Newline, ['\n'],
        ⟨l.current_position, l.current_position + 1, l.current_line⟩⟩,
        ⟨l.current_position + 1, l.current_line + 1⟩)) := rfl

theorem tokenize_letter_spec {l : Lexer} {src : List Char} {c : Char} {r : List Char}
    (hsa : suffixAt src l.current_position = some (c :: r))
    (hc : c.isAlpha = true) :
    l.tokenize_letter src =
      .ok (some (⟨.Letter, [c],
        ⟨l.current_position, l.current_position + 1, l.current_line⟩⟩,
        { l with current_position := l.current_position + 1 })) := by
  unfold Lexer.tokenize_letter
  rw [rest_of_suffixAt hsa]
  simp only [List.head?_cons]
  have hsz := isAlpha_utf8Size hc
  have hslice : sliceBytes src l.current_position (l.current_position + 1) = some [c] := by
    have hs := sliceBytes_of_suffixAt [c] r (by simpa using hsa)
    rw [show byteLen [c] = c.utf8Size from by simp [byteLen]] at hs
    rw [hsz] at hs
    exact hs
  rw [if_pos hc, hslice]

theorem numPred_first {c : Char} (hk : TokenType.ofChar c = .Number) :
    (numPred (false, 0) c).2 = true := by
  rcases ofChar_number hk with ⟨hcls, _⟩
  by_cases hd : c.isDigit
  · simp [numPred, hd]
  · by_cases hdot : c = '.'
    · subst hdot; simp [numPred]
    · have hsgn : (c == '-' || c == '+') = true := by
        simp only [Bool.or_eq_true, beq_iff_eq] at hcls ⊢
        rcases hcls with ((h | h) | h) | h
        · exact absurd h hd
        · exact absurd h hdot
        · exact Or.inl h
        · exact Or.inr h
      simp [numPred, hsgn]

theorem tokenize_number_spec {l : Lexer} {src : List Char} {c : Char} {r : List Char}
    (hsa : suffixAt src l.current_position = some (c :: r))
    (hk : TokenType.ofChar c = .Number) :
    ∃ j, 1 ≤ j ∧ j ≤ (c :: r).length ∧
      l.tokenize_number src =
        .ok (some (⟨.Number, (c :: r).take j,
          ⟨l.current_position, l.current_position + byteLen ((c :: r).take j),
            l.current_line⟩⟩,
          { l with current_position :=
              l.current_position + byteLen ((c :: r).take j) })) := by
  have hrest := rest_of_suffixAt hsa
  have hch := chomp_eq l src numPred (false, 0) hrest
  have hcount := chompCount_cons_pos numPred (false, 0) c r (numPred_first hk)
    (ofChar_number hk).2
  refine ⟨chompCount numPred (false, 0) (c :: r), by omega, chompCount_le _ _ _, ?_⟩
  unfold Lexer.tokenize_number
  rw [hch, if_neg (by omega)]


theorem isHardNewline_cons_ne {c : Char} (hc : c ≠ '\n') (xs : List Char) (sp : Span) :
    isHardNewline ⟨TokenType.Newline, c :: xs, sp⟩ = false := by
  simp [isHardNewline, hc]

theorem tokenize_comment_spec {l : Lexer} {src : List Char} {c : Char} {r : List Char}
    (hsa : suffixAt src l.current_position = some (c :: r))
    (hk : TokenType.ofChar c = .Comment) :
    (c = ')' ∧ l.tokenize_comment src = .ok none) ∨
    (∃ t l₂, l.tokenize_comment src = .ok (some (t, l₂)) ∧
      t.span.start = l.current_position ∧ t.span.line = l.current_line ∧
      l.current_position < t.span.stop ∧ t.span.stop = l₂.current_position ∧
      t.span.stop ≤ byteLen src ∧ l₂.current_line = l.current_line ∧
      isHardNewline t = false) := by
  have hrest := rest_of_suffixAt hsa
  have hbl := suffixAt_byteLen src l.current_position hsa
  rcases ofChar_comment hk with hc | hc | hc
  · -- c = '('
    subst hc
    right
    unfold Lexer.tokenize_comment
    rw [hrest]
    simp only [List.head?_cons]
    rw [if_neg (show ¬((some '(' : Option Char) = some ';') by decide), if_pos trivial]
    have hch := chomp_eq l src (fun _ c => ((), c != '\n' && c != ')')) () hrest
    have hcnt := chompCount_cons_pos (fun _ c => ((), c != '\n' && c != ')')) ()
      '(' r (by decide) (by decide)
    set j := chompCount (fun _ c => ((), c != '\n' && c != ')')) () ('(' :: r) with hjdef
    have hj0 : j ≠ 0 := by omega
    rw [hch, if_neg hj0]
    obtain ⟨j2, hj2⟩ := Nat.exists_eq_succ_of_ne_zero hj0
    have htake : ('(' :: r).take j = '(' :: r.take j2 := by rw [hj2]; rfl
    have htd : ('(' :: r).take j ++ ('(' :: r).drop j = '(' :: r :=
      List.take_append_drop _ _
    have hpos2 : 0 < byteLen (('(' :: r).take j) := by
      rw [htake, byteLen_cons]
      have := Char.utf8Size_pos '('
      omega
    have hle : byteLen (('(' :: r).take j) ≤ byteLen ('(' :: r) := byteLen_take_le _ _
    have hsuf2 : suffixAt src (l.current_position + byteLen (('(' :: r).take j)) =
        some (('(' :: r).drop j) := by
      apply suffixAt_append
      rw [htd]
      exact hsa
    have hslice : sliceBytes src l.current_position
        (l.current_position + byteLen (('(' :: r).take j)) =
        some (('(' :: r).take j) := by
      apply sliceBytes_of_suffixAt _ (('(' :: r).drop j)
      rw [htd]
      exact hsa
    rcases hdl : ('(' :: r).drop j with _ | ⟨d, r₂⟩
    · -- end of input reached: kind is Unknown
      rw [hdl] at hsuf2
      have hpeek : Lexer.peek
          { current_position := l.current_position + byteLen (('(' :: r).take j),
            current_line := l.current_line } src = .ok none := by
        unfold Lexer.peek
        rw [rest_of_suffixAt hsuf2]
        rfl
      have hlt : l.current_position < l.current_position + byteLen (('(' :: r).take j) := by
        omega
      have hle2 : l.current_position + byteLen (('(' :: r).take j) ≤ byteLen src := by
        omega
      refine ⟨⟨.Unknown, ('(' :: r).take j,
          ⟨l.current_position, l.current_position + byteLen (('(' :: r).take j),
            l.current_line⟩⟩,
        ⟨l.current_position + byteLen (('(' :: r).take j), l.current_line⟩,
        ?_, rfl, rfl, hlt, rfl, hle2, rfl, rfl⟩
      simp only [hpeek, Option.getD,
        if_neg (show ¬(TokenType.Unknown = TokenType.Comment) by decide), hslice]
    · -- stopped at a character d, which is a newline or a closing paren
      have hstop := chompCount_unit_stop (fun c => c != '\n' && c != ')') ('(' :: r) hdl
      have hd : d = '\n' ∨ d = ')' := by
        rcases hstop with h | h
        · by_cases hdn : d = '\n'
          · exact Or.inl hdn
          · right
            simp only [bne, hdn] at h
            simp at h
            exact h hdn
        · exact Or.inl h
      rw [hdl] at hsuf2
      rcases hd with hd | hd
      · -- d = newline: token tagged Newline, newline not consumed
        subst hd
        have hpeek := @peek_of_suffixAt
          ⟨l.current_position + byteLen (('(' :: r).take j), l.current_line⟩
          src '\n' r₂ hsuf2
        rw [show TokenType.ofChar '\n' = TokenType.Newline by decide] at hpeek
        have hlt : l.current_position < l.current_position + byteLen (('(' :: r).take j) := by
          omega
        have hle2 : l.current_position + byteLen (('(' :: r).take j) ≤ byteLen src := by
          omega
        refine ⟨⟨.Newline, ('(' :: r).take j,
            ⟨l.current_position, l.current_position + byteLen (('(' :: r).take j),
              l.current_line⟩⟩,
          ⟨l.current_position + byteLen (('(' :: r).take j), l.current_line⟩,
          ?_, rfl, rfl, hlt, rfl, hle2, rfl, ?_⟩
        · simp only [hpeek, Option.getD,
            if_neg (show ¬(TokenType.Newline = TokenType.Comment) by decide), hslice]
        · rw [htake]
          exact isHardNewline_cons_ne (by decide) _ _
      · -- d = ')': consume it, token tagged Comment
        subst hd
        have hpeek := @peek_of_suffixAt
          ⟨l.current_position + byteLen (('(' :: r).take j), l.current_line⟩
          src ')' r₂ hsuf2
        rw [show TokenType.ofChar ')' = TokenType.Comment by decide] at hpeek
        have hsplit : ('(' :: r) = (('(' :: r).take j ++ [')']) ++ r₂ := by
          conv_lhs => rw [← htd]
          rw [hdl]
          simp
        have hb1 : byteLen (('(' :: r).take j ++ [')']) =
            byteLen (('(' :: r).take j) + 1 := by
          rw [byteLen_append]
          rfl
        have hslice2 : sliceBytes src l.current_position
            (l.current_position + byteLen (('(' :: r).take j) + 1) =
            some (('(' :: r).take j ++ [')']) := by
          have hs := sliceBytes_of_suffixAt (('(' :: r).take j ++ [')'])
            r₂ (by rw [← hsplit]; exact hsa)
          rw [hb1] at hs
          rw [← Nat.add_assoc] at hs
          exact hs
        have hblen : byteLen ('(' :: r) =
            byteLen (('(' :: r).take j) + 1 + byteLen r₂ := by
          conv_lhs => rw [← htd]
          rw [hdl, byteLen_append, byteLen_cons]
          have h1 : Char.utf8Size ')' = 1 := rfl
          omega
        have hlt : l.current_position < l.current_position + byteLen (('(' :: r).take j) + 1 := by
          omega
        have hle2 : l.current_position + byteLen (('(' :: r).take j) + 1 ≤ byteLen src := by
          omega
        refine ⟨⟨.Comment, ('(' :: r).take j ++ [')'],
            ⟨l.current_position, l.current_position + byteLen (('(' :: r).take j) + 1,
              l.current_line⟩⟩,
          ⟨l.current_position + byteLen (('(' :: r).take j) + 1, l.current_line⟩,
          ?_, rfl, rfl, hlt, rfl, hle2, rfl, rfl⟩
        simp only [hpeek, Option.getD, eq_self_iff_true, if_true, hslice2]
  · -- c = ';'
    subst hc
    right
    unfold Lexer.tokenize_comment
    rw [hrest]
    simp only [List.head?_cons]
    rw [if_pos trivial]
    have hch := chomp_eq l src (fun _ c => ((), c != '\n')) () hrest
    have hcnt := chompCount_cons_pos (fun _ c => ((), c != '\n')) () ';' r
      (by decide) (by decide)
    set j := chompCount (fun _ c => ((), c != '\n')) () (';' :: r) with hjdef
    have hj0 : j ≠ 0 := by omega
    rw [hch, if_neg hj0]
    obtain ⟨j2, hj2⟩ := Nat.exists_eq_succ_of_ne_zero hj0
    have htake : (';' :: r).take j = ';' :: r.take j2 := by rw [hj2]; rfl
    have hpos2 : 0 < byteLen ((';' :: r).take j) := by
      rw [htake, byteLen_cons]
      have := Char.utf8Size_pos ';'
      omega
    have hle : byteLen ((';' :: r).take j) ≤ byteLen (';' :: r) := byteLen_take_le _ _
    have hlt : l.current_position < l.current_position + byteLen ((';' :: r).take j) := by
      omega
    have hle2 : l.current_position + byteLen ((';' :: r).take j) ≤ byteLen src := by
      omega
    refine ⟨⟨.Comment, (';' :: r).take j,
        ⟨l.current_position, l.current_position + byteLen ((';' :: r).take j),
          l.current_line⟩⟩,
      ⟨l.current_position + byteLen ((';' :: r).take j), l.current_line⟩,
      rfl, rfl, rfl, hlt, rfl, hle2, rfl, rfl⟩
  · -- c = ')': neither branch applies, tokenize_comment returns None
    subst hc
    left
    refine ⟨rfl, ?_⟩
    unfold Lexer.tokenize_comment
    rw [hrest]
    simp only [List.head?_cons]
    rw [if_neg (show ¬((some ')' : Option Char) = some ';') by decide),
      if_neg (show ¬((some ')' : Option Char) = some '(') by decide)]


theorem byteAt_isSome : ∀ (xs : List Char) (b : Nat), b < byteLen xs →
    ∃ c, byteAt xs b = some c := by
  intro xs
  induction xs with
  | nil => intro b hb; simp [byteLen] at hb
  | cons c s ih =>
    intro b hb
    rw [byteAt]
    by_cases hlt : b < c.utf8Size
    · exact ⟨c, by rw [if_pos hlt]⟩
    · rw [if_neg hlt]
      apply ih
      rw [byteLen_cons] at hb
      omega

theorem rest_some_of_ne_nil {l : Lexer} {src : List Char} {r : List Char}
    (hr : l.rest src = some r) (hne : r ≠ []) :
    suffixAt src l.current_position = some r := by
  unfold Lexer.rest Lexer.finished at hr
  by_cases hf : byteLen src ≤ l.current_position
  · simp [hf] at hr
    exact absurd hr hne
  · simpa [hf] using hr

theorem expectSome_ok_none {x : Except String (Option (Token × Lexer))}
    (h : expectSome x = .ok none) : False := by
  rcases x with e | y
  · simp [expectSome] at h
  · rcases y with _ | tl <;> simp [expectSome] at h

theorem expectSome_ok_some {x : Except String (Option (Token × Lexer))}
    {y : Token × Lexer} (h : expectSome x = .ok (some y)) : x = .ok (some y) := by
  rcases x with e | z
  · simp [expectSome] at h
  · rcases z with _ | tl
    · simp [expectSome] at h
    · simpa [expectSome] using h

theorem skip_whitespace_spec {l l1 : Lexer} {src : List Char}
    (h : l.skip_whitespace src = .ok l1) :
    l.current_position ≤ l1.current_position ∧
    l1.current_line = l.current_line ∧
    wsRange src l.current_position l1.current_position ∧
    (l1.current_position = l.current_position ∨ l1.current_position ≤ byteLen src) := by
  unfold Lexer.skip_whitespace at h
  rcases hr : l.rest src with _ | r
  · rw [Lexer.chomp, hr] at h
    simp at h
  · have hch := chomp_eq l src (fun _ c => ((), rustIsWhitespace c)) () hr
    rw [hch] at h
    by_cases h0 : chompCount (fun _ c => ((), rustIsWhitespace c)) () r = 0
    · rw [if_pos h0] at h
      simp at h
      subst h
      refine ⟨Nat.le_refl _, rfl, ?_, Or.inl rfl⟩
      intro k hk1 hk2
      omega
    · rw [if_neg h0] at h
      simp at h
      subst h
      have hne : r ≠ [] := by
        intro hcontra
        subst hcontra
        exact h0 (Nat.le_zero.mp (chompCount_le _ _ _))
      have hsa := rest_some_of_ne_nil hr hne
      have hbl := suffixAt_byteLen src l.current_position hsa
      have hlt := byteLen_take_le r (chompCount (fun _ c => ((), rustIsWhitespace c)) () r)
      refine ⟨by simp only []; omega, rfl, ?_, Or.inr (by simp only []; omega)⟩
      intro k hk1 hk2
      simp only [] at hk2
      set jw := chompCount (fun _ c => ((), rustIsWhitespace c)) () r with hjw
      have hb : k - l.current_position < byteLen (r.take jw) := by omega
      obtain ⟨d, hd⟩ := byteAt_isSome (r.take jw) (k - l.current_position)
        hb
      have hmem := byteAt_mem _ _ hd
      have hws := (chompCount_unit_take rustIsWhitespace r d hmem).1
      refine ⟨d, ?_, hws⟩
      have hkeq : k = l.current_position + (k - l.current_position) := by omega
      rw [hkeq, byteAt_suffixAt src l.current_position hsa]
      conv_lhs => rw [← List.take_append_drop jw r]
      rw [byteAt_append_left _ _ _ hb]
      exact hd


theorem lexNextLoop_spec (src : List Char) (start line : Nat) :
    ∀ (fuel : Nat) (l : Lexer), start ≤ l.current_position → l.current_line = line →
      (l.current_position = start ∨ l.current_position ≤ byteLen src) →
      (∀ t l2, lexNextLoop src start line fuel l = .ok (some (t, l2)) →
        t.span.start = start ∧ t.span.line = line ∧ t.span.start < t.span.stop ∧
        t.span.stop = l2.current_position ∧ t.span.stop ≤ byteLen src ∧
        l2.current_line = line + (if isHardNewline t then 1 else 0)) ∧
      (lexNextLoop src start line fuel l = .ok none →
        byteLen src ≤ start ∧ l.current_position = start) := by
  intro fuel
  induction fuel with
  | zero =>
    intro l _ _ _
    constructor
    · intro t l2 h
      simp [lexNextLoop] at h
    · intro h
      simp [lexNextLoop] at h
  | succ fuel ih =>
    intro l hstart hline hpos
    constructor
    · intro t l2 h
      rw [lexNextLoop] at h
      split at h
      · cases h
      case h_2 kind hp =>
        obtain ⟨c, r, hsa, hoc, hlt⟩ := peek_some_elim hp
        by_cases hcond : kind ≠ TokenType.Unknown ∧ l.current_position ≠ start
        · -- coalesced Unknown run is emitted
          rw [if_pos hcond] at h
          split at h
          · cases h
          next v hsl =>
            simp only [Except.ok.injEq, Option.some.injEq, Prod.mk.injEq] at h
            obtain ⟨ht, hl2⟩ := h
            subst ht
            subst hl2
            refine ⟨rfl, rfl, ?_, rfl, ?_, ?_⟩
            · show start < l.current_position
              rcases hcond with ⟨_, h2⟩
              omega
            · show l.current_position ≤ byteLen src
              omega
            · simp [isHardNewline, hline]
        · rw [if_neg hcond] at h
          cases kind with
          | Comment =>
            have hps : l.current_position = start := by
              by_contra hne
              exact hcond ⟨by decide, hne⟩
            rcases tokenize_comment_spec hsa hoc with ⟨_, hnone⟩ |
              ⟨t2, l₂, heq, hstart2, hline2, hlt2, hstop2, hle2, hlineb, hhard⟩
            · rw [hnone] at h
              simp [expectSome] at h
            · rw [heq] at h
              simp [expectSome] at h
              obtain ⟨ht, hl2⟩ := h
              subst ht
              subst hl2
              rw [hhard]
              refine ⟨by omega, by omega, by omega, hstop2, hle2, by simp; omega⟩
          | Letter =>
            have hps : l.current_position = start := by
              by_contra hne
              exact hcond ⟨by decide, hne⟩
            have heq := tokenize_letter_spec hsa (ofChar_letter hoc)
            rw [heq] at h
            simp [expectSome] at h
            obtain ⟨ht, hl2⟩ := h
            subst ht
            subst hl2
            refine ⟨?_, hline, ?_, rfl, ?_, ?_⟩
            · show l.current_position = start
              exact hps
            · show l.current_position < l.current_position + 1
              omega
            · show l.current_position + 1 ≤ byteLen src
              omega
            · simp [isHardNewline, hline]
          | Number =>
            have hps : l.current_position = start := by
              by_contra hne
              exact hcond ⟨by decide, hne⟩
            obtain ⟨j, hj1, hj2, heq⟩ := tokenize_number_spec hsa hoc
            rw [heq] at h
            simp [expectSome] at h
            obtain ⟨ht, hl2⟩ := h
            subst ht
            subst hl2
            obtain ⟨j2, hj2eq⟩ := Nat.exists_eq_succ_of_ne_zero (show j ≠ 0 by omega)
            have htake : (c :: r).take j = c :: r.take j2 := by rw [hj2eq]; rfl
            have hbpos : 0 < byteLen ((c :: r).take j) := by
              rw [htake, byteLen_cons]
              have := Char.utf8Size_pos c
              omega
            have hble := byteLen_take_le (c :: r) j
            have hbl := suffixAt_byteLen src l.current_position hsa
            refine ⟨?_, hline, ?_, rfl, ?_, ?_⟩
            · show l.current_position = start
              exact hps
            · show l.current_position < l.current_position + byteLen ((c :: r).take j)
              omega
            · show l.current_position + byteLen ((c :: r).take j) ≤ byteLen src
              omega
            · simp [isHardNewline, hline]
          | Newline =>
            have hps : l.current_position = start := by
              by_contra hne
              exact hcond ⟨by decide, hne⟩
            rw [tokenize_newline_eq] at h
            simp [expectSome] at h
            obtain ⟨ht, hl2⟩ := h
            subst ht
            subst hl2
            refine ⟨?_, hline, ?_, rfl, ?_, ?_⟩
            · show l.current_position = start
              exact hps
            · show l.current_position < l.current_position + 1
              omega
            · show l.current_position + 1 ≤ byteLen src
              omega
            · simp [isHardNewline, hline]
          | Unknown =>
            exact (ih { l with current_position := l.current_position + 1 }
              (by show start ≤ l.current_position + 1; omega) hline
              (Or.inr (by show l.current_position + 1 ≤ byteLen src; omega))).1 t l2 h
      case h_3 hp =>
        by_cases hps : l.current_position = start
        · rw [if_neg (by omega)] at h
          cases h
        · rw [if_pos (by omega)] at h
          split at h
          · cases h
          next v hsl =>
            simp only [Except.ok.injEq, Option.some.injEq, Prod.mk.injEq] at h
            obtain ⟨ht, hl2⟩ := h
            subst ht
            subst hl2
            have hpos2 : l.current_position ≤ byteLen src := by
              rcases hpos with h1 | h1
              · exact absurd h1 hps
              · exact h1
            refine ⟨rfl, rfl, ?_, rfl, ?_, ?_⟩
            · show start < l.current_position
              omega
            · show l.current_position ≤ byteLen src
              exact hpos2
            · simp [isHardNewline, hline]
    · intro h
      rw [lexNextLoop] at h
      split at h
      · cases h
      case h_2 kind hp =>
        obtain ⟨c, r, hsa, hoc, hlt⟩ := peek_some_elim hp
        by_cases hcond : kind ≠ TokenType.Unknown ∧ l.current_position ≠ start
        · rw [if_pos hcond] at h
          split at h
          · cases h
          · cases h
        · rw [if_neg hcond] at h
          cases kind with
          | Comment => exact (expectSome_ok_none h).elim
          | Letter => exact (expectSome_ok_none h).elim
          | Number => exact (expectSome_ok_none h).elim
          | Newline => exact (expectSome_ok_none h).elim
          | Unknown =>
            have h2 := (ih { l with current_position := l.current_position + 1 }
              (by show start ≤ l.current_position + 1; omega) hline
              (Or.inr (by show l.current_position + 1 ≤ byteLen src; omega))).2 h
            obtain ⟨_, h3⟩ := h2
            have h4 : l.current_position + 1 = start := h3
            omega
      case h_3 hp =>
        by_cases hps : l.current_position = start
        · have := peek_none_elim hp
          exact ⟨by omega, hps⟩
        · rw [if_pos (by omega)] at h
          split at h
          · cases h
          · cases h


theorem next_spec_some {l : Lexer} {src : List Char} {t : Token} {l2 : Lexer}
    (h : l.next src = .ok (some (t, l2))) :
    l.current_position ≤ t.span.start ∧
    wsRange src l.current_position t.span.start ∧
    t.span.line = l.current_line ∧
    t.span.start < t.span.stop ∧
    t.span.stop = l2.current_position ∧
    t.span.stop ≤ byteLen src ∧
    l2.current_line = l.current_line + (if isHardNewline t then 1 else 0) := by
  unfold Lexer.next at h
  split at h
  · cases h
  next l1 hskip =>
    obtain ⟨hle, hline1, hws, _⟩ := skip_whitespace_spec hskip
    obtain ⟨hstart, hlinet, hlt, hstop, hlesrc, hline2⟩ :=
      (lexNextLoop_spec src l1.current_position l1.current_line
        (byteLen src + 1) l1 (Nat.le_refl _) rfl (Or.inl rfl)).1 t l2 h
    refine ⟨?_, ?_, hlinet.trans hline1, hlt, hstop, hlesrc, ?_⟩
    · rw [hstart]; exact hle
    · rw [hstart]; exact hws
    · rw [hline2, hline1]

theorem next_spec_none {l : Lexer} {src : List Char}
    (h : l.next src = .ok none) :
    wsRange src l.current_position (byteLen src) := by
  unfold Lexer.next at h
  split at h
  · cases h
  next l1 hskip =>
    obtain ⟨hle, _, hws, _⟩ := skip_whitespace_spec hskip
    obtain ⟨hfin, _⟩ :=
      (lexNextLoop_spec src l1.current_position l1.current_line
        (byteLen src + 1) l1 (Nat.le_refl _) rfl (Or.inl rfl)).2 h
    intro k hk1 hk2
    exact hws k hk1 (by omega)

theorem lexRunF_chain (src : List Char) : ∀ (fuel : Nat) (l : Lexer) (ts : List Token),
    lexRunF src fuel l = .ok ts → chain src l.current_position ts := by
  intro fuel
  induction fuel with
  | zero => intro l ts h; simp [lexRunF] at h
  | succ fuel ih =>
    intro l ts h
    rw [lexRunF] at h
    split at h
    · cases h
    next hnext =>
      simp only [Except.ok.injEq] at h
      subst h
      exact chain.nil _ (next_spec_none hnext)
    next t l2 hnext =>
      split at h
      · cases h
      next ts2 hrun =>
        simp only [Except.ok.injEq] at h
        subst h
        obtain ⟨hle, hws, _, hlt, hstop, hlesrc, _⟩ := next_spec_some hnext
        have hch := ih l2 ts2 hrun
        rw [← hstop] at hch
        exact chain.cons _ _ _ hle hws hlt hlesrc hch

theorem lexRunF_lines (src : List Char) : ∀ (fuel : Nat) (l : Lexer) (ts : List Token),
    lexRunF src fuel l = .ok ts →
    ∀ i, ∀ hi : i < ts.length,
      (ts.get ⟨i, hi⟩).span.line = l.current_line + newlinesBefore ts i := by
  intro fuel
  induction fuel with
  | zero => intro l ts h; simp [lexRunF] at h
  | succ fuel ih =>
    intro l ts h
    rw [lexRunF] at h
    split at h
    · cases h
    next hnext =>
      simp only [Except.ok.injEq] at h
      subst h
      intro i hi
      simp at hi
    next t l2 hnext =>
      split at h
      · cases h
      next ts2 hrun =>
        simp only [Except.ok.injEq] at h
        subst h
        intro i hi
        obtain ⟨_, _, hlinet, _, _, _, hline2⟩ := next_spec_some hnext
        cases i with
        | zero =>
          simpa [newlinesBefore] using hlinet
        | succ i2 =>
          have hi2 : i2 < ts2.length := by simpa using hi
          have hrec := ih l2 ts2 hrun i2 hi2
          have hget : ((t :: ts2).get ⟨i2 + 1, hi⟩) = ts2.get ⟨i2, hi2⟩ := rfl
          rw [hget, hrec, hline2]
          unfold newlinesBefore
          rw [List.take_succ_cons]
          by_cases hh : isHardNewline t = true
          · simp [List.filter_cons, hh]
            omega
          · simp [List.filter_cons, hh]

theorem chain_start_le {src : List Char} {p : Nat} {ts : List Token}
    (h : chain src p ts) : ∀ t ∈ ts, p ≤ t.span.start := by
  induction h with
  | nil p hws => intro t ht; cases ht
  | cons p t ts hle hws hlt hstop hch ih =>
    intro u hu
    rcases List.mem_cons.mp hu with h1 | h1
    · subst h1; exact hle
    · have := ih u h1
      omega

theorem chain_pairwise {src : List Char} {p : Nat} {ts : List Token}
    (h : chain src p ts) :
    List.Pairwise (fun a b : Token => a.span.stop ≤ b.span.start) ts := by
  induction h with
  | nil p hws => exact List.Pairwise.nil
  | cons p t ts hle hws hlt hstop hch ih =>
    exact List.Pairwise.cons (fun b hb => chain_start_le hch b hb) ih

theorem chain_bounds {src : List Char} {p : Nat} {ts : List Token}
    (h : chain src p ts) :
    ∀ t ∈ ts, t.span.start < t.span.stop ∧ t.span.stop ≤ byteLen src := by
  induction h with
  | nil p hws => intro t ht; cases ht
  | cons p t ts hle hws hlt hstop hch ih =>
    intro u hu
    rcases List.mem_cons.mp hu with h1 | h1
    · subst h1; exact ⟨hlt, hstop⟩
    · exact ih u h1

theorem chain_cover {src : List Char} {p : Nat} {ts : List Token}
    (h : chain src p ts) :
    ∀ k, p ≤ k → k < byteLen src →
      (∃ t ∈ ts, t.span.start ≤ k ∧ k < t.span.stop) ∨ wsByte src k := by
  induction h with
  | nil p hws =>
    intro k hk1 hk2
    exact Or.inr (hws k hk1 hk2)
  | cons p t ts hle hws hlt hstop hch ih =>
    intro k hk1 hk2
    by_cases h1 : k < t.span.start
    · exact Or.inr (hws k hk1 h1)
    · by_cases h2 : k < t.span.stop
      · exact Or.inl ⟨t, List.mem_cons_self _ _, by omega, h2⟩
      · rcases ih k (by omega) hk2 with ⟨u, hu, hu2⟩ | hws2
        · exact Or.inl ⟨u, List.mem_cons_of_mem _ hu, hu2⟩
        · exact Or.inr hws2


/-- C3 (amended): the claim as stated counts all tokens of kind `Newline`,
but an unterminated parenthesis comment cut off by a newline is also tagged
`Newline` without bumping the line counter (see the counterexample).  The
statement holds for genuine newline tokens: whenever tokenization completes
without a panic, the line number recorded in a token's span equals the number
of strictly earlier tokens of kind `Newline` whose value is the newline
character itself. -/
theorem c3_amended (src : List Char) (ts : List Token) (h : tokenize src = .ok ts)
    (i : Nat) (hi : i < ts.length) :
    (ts.get ⟨i, hi⟩).span.line = newlinesBefore ts i := by
  have hl := lexRunF_lines src (byteLen src + 1) Lexer.new ts h i hi
  rw [show Lexer.new.current_line = 0 from rfl] at hl
  simpa using hl

/-- Witness for C3 at a concrete input: on `"\nG"` the letter token carries
line 1, the count of genuine newline tokens before it. -/
theorem c3_witness :
    (([⟨.Newline, ['\n'], ⟨0, 1, 0⟩⟩, ⟨.Letter, ['G'], ⟨1, 2, 1⟩⟩] : List Token).get
        ⟨1, by decide⟩).span.line =
      newlinesBefore
        [⟨.Newline, ['\n'], ⟨0, 1, 0⟩⟩, ⟨.Letter, ['G'], ⟨1, 2, 1⟩⟩] 1 :=
  c3_amended ['\n', 'G'] _ rfl 1 (by decide)

/-- C4 (amended): the claim as stated quantifies over every input, but inputs
on which the tokenizer panics (see the counterexample) leave bytes accounted
for by nothing.  Whenever the tokenizer runs to completion, its spans are
non-overlapping, strictly increasing in start offset, nonempty and within the
input, every input byte is covered by a token span or is a whitespace byte,
and no byte lies in two different tokens' spans. -/
theorem c4_amended (src : List Char) (ts : List Token) (h : tokenize src = .ok ts) :
    (∀ i j, ∀ hi : i < ts.length, ∀ hj : j < ts.length, i < j →
      (ts.get ⟨i, hi⟩).span.stop ≤ (ts.get ⟨j, hj⟩).span.start ∧
      (ts.get ⟨i, hi⟩).span.start < (ts.get ⟨j, hj⟩).span.start) ∧
    (∀ t ∈ ts, t.span.start < t.span.stop ∧ t.span.stop ≤ byteLen src) ∧
    (∀ k, k < byteLen src →
      (∃ t ∈ ts, t.span.start ≤ k ∧ k < t.span.stop) ∨ wsByte src k) ∧
    (∀ i j, ∀ hi : i < ts.length, ∀ hj : j < ts.length, ∀ k : Nat,
      (ts.get ⟨i, hi⟩).span.start ≤ k → k < (ts.get ⟨i, hi⟩).span.stop →
      (ts.get ⟨j, hj⟩).span.start ≤ k → k < (ts.get ⟨j, hj⟩).span.stop → i = j) := by
  have hch : chain src 0 ts := by
    have hc0 := lexRunF_chain src (byteLen src + 1) Lexer.new ts h
    rw [show Lexer.new.current_position = 0 from rfl] at hc0
    exact hc0
  have hpw := chain_pairwise hch
  have hbounds := chain_bounds hch
  rw [List.pairwise_iff_get] at hpw
  have horder : ∀ i j, ∀ hi : i < ts.length, ∀ hj : j < ts.length, i < j →
      (ts.get ⟨i, hi⟩).span.stop ≤ (ts.get ⟨j, hj⟩).span.start := by
    intro i j hi hj hij
    exact hpw ⟨i, hi⟩ ⟨j, hj⟩ hij
  refine ⟨?_, hbounds, fun k hk => chain_cover hch k (Nat.zero_le k) hk, ?_⟩
  · intro i j hi hj hij
    refine ⟨horder i j hi hj hij, ?_⟩
    have h1 := horder i j hi hj hij
    have h2 := (hbounds _ (ts.get_mem i hi)).1
    omega
  · intro i j hi hj k hik1 hik2 hjk1 hjk2
    rcases Nat.lt_trichotomy i j with hij | hij | hij
    · have h1 := horder i j hi hj hij
      omega
    · exact hij
    · have h1 := horder j i hj hi hij
      omega

/-- Witness for C4 at a concrete input: on `"G1"` the two token spans are
ordered without overlap. -/
theorem c4_witness :
    (([⟨.Letter, ['G'], ⟨0, 1, 0⟩⟩, ⟨.Number, ['1'], ⟨1, 2, 0⟩⟩] : List Token).get
        ⟨0, by decide⟩).span.stop ≤
      (([⟨.Letter, ['G'], ⟨0, 1, 0⟩⟩, ⟨.Number, ['1'], ⟨1, 2, 0⟩⟩] : List Token).get
        ⟨1, by decide⟩).span.start :=
  ((c4_amended ['G', '1'] _ rfl).1 0 1 (by decide) (by decide) (by decide)).1


theorem chompCount_cons_zero {σ : Type} (pred : σ → Char → σ × Bool) (st : σ)
    (c : Char) (cs : List Char)
    (h : (pred st c).2 = false ∨ c = '\n') :
    chompCount pred st (c :: cs) = 0 := by
  rcases hp : pred st c with ⟨st2, b⟩
  rw [chompCount, hp]
  rcases h with h | h
  · rw [hp] at h
    simp at h
    subst h
    simp
  · subst h
    simp

theorem skip_whitespace_noop {l : Lexer} {src : List Char} {c : Char} {r : List Char}
    (hsa : suffixAt src l.current_position = some (c :: r))
    (hws : rustIsWhitespace c = false ∨ c = '\n') :
    l.skip_whitespace src = .ok l := by
  have hrest := rest_of_suffixAt hsa
  have hch := chomp_eq l src (fun _ c => ((), rustIsWhitespace c)) () hrest
  have h0 : chompCount (fun _ c => ((), rustIsWhitespace c)) () (c :: r) = 0 := by
    apply chompCount_cons_zero
    rcases hws with h | h
    · exact Or.inl (by simpa using h)
    · exact Or.inr h
  unfold Lexer.skip_whitespace
  rw [hch, if_pos h0]

theorem next_dispatch {l : Lexer} {src : List Char} {c : Char} {r : List Char}
    (hsa : suffixAt src l.current_position = some (c :: r))
    (hws : rustIsWhitespace c = false ∨ c = '\n') :
    l.next src =
      (match TokenType.ofChar c with
        | .Comment => expectSome (l.tokenize_comment src)
        | .Letter => expectSome (l.tokenize_letter src)
        | .Number => expectSome (l.tokenize_number src)
        | .Newline => expectSome (l.tokenize_newline src)
        | .Unknown =>
            lexNextLoop src l.current_position l.current_line (byteLen src)
              { l with current_position := l.current_position + 1 }) := by
  unfold Lexer.next
  rw [skip_whitespace_noop hsa hws]
  simp only [lexNextLoop, peek_of_suffixAt hsa]
  rw [if_neg (fun hh => hh.2 rfl)]


/-- C7: for a `(`-opened comment that is not closed by `)`: if a newline is
reached first, the tokenizer emits a token tagged `Newline` whose value is
the unterminated comment text with no trailing delimiter and does not consume
the newline, which the following call then tokenizes as a separate genuine
`Newline` token; if end of input is reached first, it emits a token tagged
`Unknown` spanning the entire unterminated fragment. -/
theorem c7_theorem (src : List Char) (l : Lexer) (body : List Char)
    (hbody : ∀ c ∈ body, c ≠ '\n' ∧ c ≠ ')') :
    (∀ tl, suffixAt src l.current_position = some ('(' :: (body ++ '\n' :: tl)) →
      l.next src =
        .ok (some (⟨.Newline, '(' :: body,
          ⟨l.current_position, l.current_position + byteLen ('(' :: body),
            l.current_line⟩⟩,
          ⟨l.current_position + byteLen ('(' :: body), l.current_line⟩)) ∧
      Lexer.next ⟨l.current_position + byteLen ('(' :: body), l.current_line⟩ src =
        .ok (some (⟨.Newline, ['\n'],
          ⟨l.current_position + byteLen ('(' :: body),
            l.current_position + byteLen ('(' :: body) + 1, l.current_line⟩⟩,
          ⟨l.current_position + byteLen ('(' :: body) + 1, l.current_line + 1⟩))) ∧
    (suffixAt src l.current_position = some ('(' :: body) →
      l.current_position + byteLen ('(' :: body) = byteLen src ∧
      l.next src =
        .ok (some (⟨.Unknown, '(' :: body,
          ⟨l.current_position, l.current_position + byteLen ('(' :: body),
            l.current_line⟩⟩,
          ⟨l.current_position + byteLen ('(' :: body), l.current_line⟩))) := by
  have hxs : ∀ x ∈ '(' :: body, (fun c : Char => c != '\n' && c != ')') x = true ∧
      x ≠ '\n' := by
    intro x hx
    rcases List.mem_cons.mp hx with h1 | h1
    · subst h1; exact ⟨by decide, by decide⟩
    · have h2 := hbody x h1
      refine ⟨?_, h2.1⟩
      simp [bne, h2.1, h2.2]
  constructor
  · intro tl hsa0
    have hsaA : suffixAt src l.current_position =
        some (('(' :: body) ++ ('\n' :: tl)) := hsa0
    have hsuf2 : suffixAt src (l.current_position + byteLen ('(' :: body)) =
        some ('\n' :: tl) := suffixAt_append ('(' :: body) hsaA
    constructor
    · rw [next_dispatch hsa0 (Or.inl (by decide))]
      show expectSome (l.tokenize_comment src) = _
      have hrest := rest_of_suffixAt hsa0
      unfold Lexer.tokenize_comment
      rw [hrest]
      simp only [List.head?_cons]
      rw [if_neg (show ¬((some '(' : Option Char) = some ';') by decide),
        if_pos trivial]
      have hcnt : chompCount (fun _ c => ((), c != '\n' && c != ')')) ()
          (('(' :: body) ++ ('\n' :: tl)) = ('(' :: body).length := by
        apply chompCount_unit_append _ _ _ hxs
        intro d ys2 hd
        injection hd with h1 _
        right
        exact h1.symm
      have hcnt2 : chompCount (fun _ c => ((), c != '\n' && c != ')')) ()
          ('(' :: (body ++ '\n' :: tl)) = ('(' :: body).length := hcnt
      have hch := chomp_eq l src (fun _ c => ((), c != '\n' && c != ')')) () hrest
      rw [hch, hcnt2, if_neg (by simp),
        show ('(' :: (body ++ '\n' :: tl)).take (('(' :: body).length) = '(' :: body
          from List.take_left _ _]
      have hpeek := @peek_of_suffixAt
        ⟨l.current_position + byteLen ('(' :: body), l.current_line⟩
        src '\n' tl hsuf2
      rw [show TokenType.ofChar '\n' = TokenType.Newline by decide] at hpeek
      have hslice : sliceBytes src l.current_position
          (l.current_position + byteLen ('(' :: body)) = some ('(' :: body) :=
        sliceBytes_of_suffixAt ('(' :: body) ('\n' :: tl) hsaA
      simp only [hpeek, Option.getD,
        if_neg (show ¬(TokenType.Newline = TokenType.Comment) by decide), hslice]
      rfl
    · rw [next_dispatch hsuf2 (Or.inr rfl)]
      show expectSome (Lexer.tokenize_newline _ src) = _
      rw [tokenize_newline_eq]
      rfl
  · intro hsa0
    have hsa1 : suffixAt src l.current_position = some (('(' :: body) ++ []) := by
      simpa using hsa0
    have hbl := suffixAt_byteLen src l.current_position hsa0
    have hstop : l.current_position + byteLen ('(' :: body) = byteLen src := by
      omega
    refine ⟨hstop, ?_⟩
    rw [next_dispatch hsa0 (Or.inl (by decide))]
    show expectSome (l.tokenize_comment src) = _
    have hrest := rest_of_suffixAt hsa0
    unfold Lexer.tokenize_comment
    rw [hrest]
    simp only [List.head?_cons]
    rw [if_neg (show ¬((some '(' : Option Char) = some ';') by decide),
      if_pos trivial]
    have hcnt : chompCount (fun _ c => ((), c != '\n' && c != ')')) ()
        ('(' :: body) = ('(' :: body).length := by
      have h0 := chompCount_unit_append (fun c : Char => c != '\n' && c != ')')
        ('(' :: body) [] hxs (fun d ys2 hd => by cases hd)
      simpa using h0
    have hch := chomp_eq l src (fun _ c => ((), c != '\n' && c != ')')) () hrest
    rw [hch, hcnt, if_neg (by simp), List.take_length]
    have hsuf2 : suffixAt src (l.current_position + byteLen ('(' :: body)) =
        some ([] : List Char) := suffixAt_append ('(' :: body) hsa1
    have hpeek : Lexer.peek
        ⟨l.current_position + byteLen ('(' :: body), l.current_line⟩ src =
        .ok none := by
      unfold Lexer.peek
      rw [rest_of_suffixAt hsuf2]
      rfl
    have hslice : sliceBytes src l.current_position
        (l.current_position + byteLen ('(' :: body)) = some ('(' :: body) :=
      sliceBytes_of_suffixAt ('(' :: body) [] hsa1
    simp only [hpeek, Option.getD,
      if_neg (show ¬(TokenType.Unknown = TokenType.Comment) by decide), hslice]
    rfl

/-- Witness for C7 at concrete inputs: on `"(c\nG"` the first call yields the
`Newline`-tagged unterminated comment `"(c"`, the second call the genuine
newline; on `"(c"` a single `Unknown` token spans the whole input. -/
theorem c7_witness :
    ((Lexer.next ⟨0, 0⟩ ['(', 'c', '\n', 'G'] =
        .ok (some (⟨.Newline, ['(', 'c'], ⟨0, 2, 0⟩⟩, ⟨2, 0⟩))) ∧
      (Lexer.next ⟨2, 0⟩ ['(', 'c', '\n', 'G'] =
        .ok (some (⟨.Newline, ['\n'], ⟨2, 3, 0⟩⟩, ⟨3, 1⟩)))) ∧
    (Lexer.next ⟨0, 0⟩ ['(', 'c'] =
      .ok (some (⟨.Unknown, ['(', 'c'], ⟨0, 2, 0⟩⟩, ⟨2, 0⟩))) := by
  constructor
  · exact ( c7_theorem ['(', 'c', '\n', 'G'] ⟨0, 0⟩ ['c'] (by decide)).1 ['G'] rfl
  · exact (( c7_theorem ['(', 'c'] ⟨0, 0⟩ ['c'] (by decide)).2 rfl).2


theorem byteLen_of_ascii : ∀ (xs : List Char), (∀ c ∈ xs, c.utf8Size = 1) →
    byteLen xs = xs.length := by
  intro xs
  induction xs with
  | nil => intro _; rfl
  | cons c s ih =>
    intro h
    rw [byteLen_cons, h c (List.mem_cons_self _ _),
      ih (fun d hd => h d (List.mem_cons_of_mem _ hd))]
    simp only [List.length_cons]
    omega

theorem lexNextLoop_run (src : List Char) (start line : Nat) :
    ∀ (run : List Char) (fuel : Nat) (l : Lexer) (tl : List Char),
      suffixAt src l.current_position = some (run ++ tl) →
      (∀ c ∈ run, TokenType.ofChar c = .Unknown ∧ c.utf8Size = 1) →
      lexNextLoop src start line (fuel + run.length) l =
        lexNextLoop src start line fuel
          { l with current_position := l.current_position + run.length } := by
  intro run
  induction run with
  | nil =>
    intro fuel l tl hsa hrun
    rfl
  | cons c run2 ih =>
    intro fuel l tl hsa hrun
    have hc := hrun c (List.mem_cons_self _ _)
    have hsaC : suffixAt src l.current_position = some (c :: (run2 ++ tl)) := hsa
    have harith : fuel + (c :: run2).length = (fuel + run2.length) + 1 := by
      simp [List.length_cons]
      omega
    rw [harith]
    rw [lexNextLoop]
    simp only [peek_of_suffixAt hsaC]
    rw [if_neg (fun hh => hh.1 hc.1)]
    rw [hc.1]
    show lexNextLoop src start line (fuel + run2.length)
        { l with current_position := l.current_position + 1 } = _
    have hsa2 : suffixAt src (l.current_position + 1) = some (run2 ++ tl) := by
      have hdrop := suffixAt_cons_drop src l.current_position hsaC
      rwa [hc.2] at hdrop
    rw [ih fuel { l with current_position := l.current_position + 1 } tl hsa2
      (fun d hd => hrun d (List.mem_cons_of_mem _ hd))]
    have h5 : l.current_position + 1 + run2.length =
        l.current_position + (c :: run2).length := by
      simp [List.length_cons]
      omega
    rw [h5]

/-- C8 (amended): the claim as stated fails when the maximal `Unknown` run
begins with whitespace (leading whitespace is skipped before the token
starts; see the counterexample) and when the run contains a multi-byte
character (the cursor then lands inside a character and the tokenizer
panics, the C1 bug).  For a maximal run of single-byte `Unknown`-classified
characters whose first character is not whitespace, bounded on the right by
a recognized character or the end of input, one call emits exactly one
`Unknown` token spanning the whole run. -/
theorem c8_amended (src : List Char) (l : Lexer) (c0 : Char) (run2 tl : List Char)
    (hrun : ∀ c ∈ (c0 :: run2), TokenType.ofChar c = .Unknown ∧ c.utf8Size = 1)
    (hws : rustIsWhitespace c0 = false)
    (hsa : suffixAt src l.current_position = some ((c0 :: run2) ++ tl))
    (hstop : tl = [] ∨ ∃ d tl2, tl = d :: tl2 ∧ TokenType.ofChar d ≠ .Unknown) :
    l.next src =
      .ok (some (⟨.Unknown, c0 :: run2,
        ⟨l.current_position, l.current_position + (c0 :: run2).length,
          l.current_line⟩⟩,
        ⟨l.current_position + (c0 :: run2).length, l.current_line⟩)) := by
  have hbl := suffixAt_byteLen src l.current_position hsa
  have hblr : byteLen (c0 :: run2) = (c0 :: run2).length :=
    byteLen_of_ascii _ (fun c hc => (hrun c hc).2)
  have hsaC : suffixAt src l.current_position = some (c0 :: (run2 ++ tl)) := hsa
  have hlen : (c0 :: run2).length ≤ byteLen src := by
    rw [byteLen_append] at hbl
    omega
  unfold Lexer.next
  rw [skip_whitespace_noop hsaC (Or.inl hws)]
  show lexNextLoop src l.current_position l.current_line (byteLen src + 1) l = _
  have hfuel : byteLen src + 1 = (byteLen src + 1 - (c0 :: run2).length) +
      (c0 :: run2).length := by
    omega
  rw [hfuel, lexNextLoop_run src l.current_position l.current_line (c0 :: run2)
    (byteLen src + 1 - (c0 :: run2).length) l tl hsa hrun]
  have hsuf2 : suffixAt src (l.current_position + (c0 :: run2).length) = some tl := by
    have h2 := suffixAt_append (c0 :: run2) hsa
    rwa [hblr] at h2
  obtain ⟨fuel2, hfuel2⟩ : ∃ f, byteLen src + 1 - (c0 :: run2).length = f + 1 := by
    refine ⟨byteLen src - (c0 :: run2).length, ?_⟩
    omega
  rw [hfuel2, lexNextLoop]
  have hslice : sliceBytes src l.current_position
      (l.current_position + (c0 :: run2).length) = some (c0 :: run2) := by
    have h3 := sliceBytes_of_suffixAt (c0 :: run2) tl hsa
    rwa [hblr] at h3
  have hne : l.current_position + (c0 :: run2).length ≠ l.current_position := by
    simp [List.length_cons]
  rcases hstop with h | ⟨d, tl2, htl, hd⟩
  · subst h
    have hpeek : Lexer.peek
        ⟨l.current_position + (c0 :: run2).length, l.current_line⟩ src =
        .ok none := by
      unfold Lexer.peek
      rw [rest_of_suffixAt hsuf2]
      rfl
    simp only [hpeek]
    rw [if_pos hne]
    have hend : byteLen src = l.current_position + (c0 :: run2).length := by
      have h4 := suffixAt_byteLen src _ hsuf2
      rw [show byteLen ([] : List Char) = 0 from rfl] at h4
      omega
    rw [← hend] at hslice
    rw [hslice]
    rfl
  · subst htl
    have hpeek := @peek_of_suffixAt
      ⟨l.current_position + (c0 :: run2).length, l.current_line⟩ src d tl2 hsuf2
    simp only [hpeek]
    rw [if_pos ⟨hd, hne⟩]
    rw [hslice]
    rfl

/-- Witness for C8 at a concrete input: on `"$%G"` the maximal run `"$%"` of
`Unknown`-classified characters yields exactly one `Unknown` token spanning
the whole run. -/
theorem c8_witness :
    Lexer.next ⟨0, 0⟩ ['$', '%', 'G'] =
      .ok (some (⟨.Unknown, ['$', '%'], ⟨0, 2, 0⟩⟩, ⟨2, 0⟩)) :=
  c8_amended ['$', '%', 'G'] ⟨0, 0⟩ '$' ['%'] ['G'] (by decide) (by decide) rfl
    (Or.inr ⟨'G', [], rfl, by decide⟩)

end Gcode
